import Mathlib

/-!
Verification development for the visual workflow automator
(`src/automation.py`).  The Python program is shallowly embedded:

* steps are the dictionaries the dialogs construct (`Step` below);
* the recorder post-processing pass (`record_mouse_keyboard_session`,
  merge loop at lines 158-177) becomes `mergeSteps`;
* the live capture callbacks (`on_press` / `on_click`) become a state
  machine `procEv` over a timestamped event list, with one stop flag per
  pynput listener (the keyboard and mouse listeners stop independently);
* the execution engine (`run_workflow_loop`, `execute_step`,
  `execute_conditional_record`, `execute_loop_block`) becomes a
  deterministic interpreter over `EngState`, with the collaborators
  (pyautogui, the clipboard, and the user's Stop press) supplied by an
  environment `Env`.  Leaf-action invocations are recorded in a trace,
  each tagged with the number of delay sleeps completed before it; the
  Stop press is modelled by an oracle naming the sleep during which the
  user asserts the stop signal;
* `toggle_run` becomes `toggleRun` on a controller state that counts
  spawned background execution contexts;
* the dialogs' `apply` validators become `applyMouse` / `applyKeyboard`
  / `applyLoop` / `applyImage`, with `int()` / `float()` parsing
  abstracted as `Option` inputs (`none` = the entry text failed to
  parse, raising `ValueError`);
* persistence (`save_workflow` / `load_workflow`) becomes an encoder to
  a JSON document tree and a field-by-key decoder.
-/

namespace VWA

/-- The step data model: the five dictionary variants built by the
dialogs (`"mouse"`, `"keyboard"`, `"image"`, `"conditional_record"`,
`"loop"`).  A conditional case is a pair of its `value` string and its
`steps` list. -/
inductive Step where
  | mouse (action : String) (x y : ℤ) (delay : ℚ)
  | keyboard (action : String) (value : String) (delay : ℚ)
  | image (path : String) (delay : ℚ)
  | condRecord (source : String) (cases : List (String × List Step))
      (elseSteps : List Step) (delay : ℚ)
  | loop (count : ℤ) (steps : List Step) (delay : ℚ)

/-- `float(step.get("delay", 0))`: every constructed step carries its
delay field. -/
def Step.delayOf : Step → ℚ
  | .mouse _ _ _ d => d
  | .keyboard _ _ d => d
  | .image _ d => d
  | .condRecord _ _ _ d => d
  | .loop _ _ d => d

/-- Python substring membership `pat in s` on character lists:
some suffix of `s` has `pat` as a prefix (the empty pattern is a
substring of everything, as in Python). -/
def occursIn (pat : List Char) : List Char → Bool
  | [] => pat.isEmpty
  | c :: rest => pat.isPrefixOf (c :: rest) || occursIn pat rest

/-- Python `pat in s` for strings. -/
def strContains (s pat : String) : Bool :=
  occursIn pat.data s.data

/-- `os.path.basename` on POSIX: the part of the path after the last
`/` (the whole path when it has no `/`, empty when it ends in `/`). -/
def basename (p : String) : String :=
  ⟨(p.data.reverse.takeWhile (fun c => c ≠ '/')).reverse⟩

/-! ## Recorder: recorded raw steps and the coalescing pass -/

/-- A recorded raw step, as appended by `add_delay_and_append`: either a
keyboard dict (`action` is `"Type Text"` or `"Press Key"`) or a mouse
dict (`action` is `"Click"`). -/
inductive RStep where
  | kb (action : String) (value : String) (delay : ℚ)
  | ms (action : String) (x y : ℤ) (delay : ℚ)
deriving DecidableEq

/-- The merge-loop test at line 162: a keyboard `"Type Text"` step whose
value is a single character. -/
def RStep.isCharType : RStep → Bool
  | .kb a v _ => a = "Type Text" && v.length = 1
  | .ms _ _ _ _ => false

/-- The recorded value of a step (`step["value"]`; mouse steps carry
none). -/
def RStep.valOf : RStep → String
  | .kb _ v _ => v
  | .ms _ _ _ _ => ""

/-- `step.get("delay", 0.0)`. -/
def RStep.delayOf : RStep → ℚ
  | .kb _ _ d => d
  | .ms _ _ _ d => d

/-- The body of the post-processing merge loop (lines 158-177): `buf` is
`buffer_text`, `bdel` is `buffer_delay`.  Single-character type-text
steps are appended into the buffer (storing the first one's delay); any
other step flushes a non-empty buffer as one `"Type Text"` step before
being emitted itself; a trailing non-empty buffer is flushed at the
end.  As in the source, `buffer_delay` is not reset on flush. -/
def mergeGo : List RStep → String → ℚ → List RStep
  | [], buf, bdel => if buf = "" then [] else [.kb "Type Text" buf bdel]
  | s :: rest, buf, bdel =>
    if s.isCharType then
      mergeGo rest (buf ++ s.valOf) (if buf = "" then s.delayOf else bdel)
    else
      (if buf = "" then [] else [.kb "Type Text" buf bdel]) ++ s :: mergeGo rest "" bdel

/-- The full coalescing pass: merge with an initially empty buffer
(`buffer_text = ""`, `buffer_delay = 0.0`). -/
def mergeSteps (rec : List RStep) : List RStep :=
  mergeGo rec "" 0

/-- Concatenation of a list of strings. -/
def concatAll : List String → String
  | [] => ""
  | v :: vs => v ++ concatAll vs

/-- Modelled from the spec (§4.2, coalescing pass): a maximal run of
consecutive single-character type-text events becomes one type-text step
whose value is the concatenated characters and whose delay is the first
merged event's delay; any other event is emitted unchanged.  Stated as a
second definition to be compared with the source-derived `mergeSteps`. -/
def coalesceSpec : List RStep → List RStep
  | [] => []
  | s :: rest =>
    if s.isCharType then
      .kb "Type Text" (s.valOf ++ concatAll ((rest.takeWhile RStep.isCharType).map RStep.valOf))
          s.delayOf :: coalesceSpec (rest.dropWhile RStep.isCharType)
    else
      s :: coalesceSpec rest
  termination_by l => l.length
  decreasing_by
  · exact Nat.lt_succ_of_le (List.dropWhile_sublist _).length_le
  · exact Nat.lt_succ_of_le (Nat.le_refl _)

/-! ## Recorder: live capture state machine -/

/-- A pressed key as seen by `on_press`: a printable character
(`key.char` is set), the escape key, or a special named key. -/
inductive KeyK where
  | ch (c : Char)
  | esc
  | named (name : String)
deriving DecidableEq

/-- Mouse buttons. -/
inductive MBtn where
  | left
  | right
  | middle
deriving DecidableEq

/-- A captured input event with its capture timestamp (seconds): a key
press, or a mouse button transition (`pressed = true` for press,
`false` for release). -/
inductive InEv where
  | key (k : KeyK) (t : ℚ)
  | click (x y : ℤ) (btn : MBtn) (pressed : Bool) (t : ℚ)
deriving DecidableEq

/-- Whether a capture event is a mouse event (handled by the mouse
listener) rather than a key event (handled by the keyboard
listener). -/
def InEv.isClick : InEv → Bool
  | .key _ _ => false
  | .click _ _ _ _ _ => true

/-- Python 3 `round` (banker's rounding, ties to even) on a rational. -/
def pyRound (q : ℚ) : ℤ :=
  let f : ℤ := ⌊q⌋
  let frac : ℚ := q - f
  if frac < 1/2 then f
  else if 1/2 < frac then f + 1
  else if f % 2 = 0 then f else f + 1

/-- `round(x, 3)`. -/
def pyRound3 (q : ℚ) : ℚ :=
  (pyRound (q * 1000) : ℚ) / 1000

/-- The capture state shared by the two pynput listeners:
the recorded list, `start_time` / `last_time`, `right_pressed_time`,
and one stopped flag per listener (`on_press` returning `False` stops
only the keyboard listener; `on_click` returning `False` stops only the
mouse listener). -/
structure CapState where
  recd : List RStep
  startTime : Option ℚ
  lastTime : ℚ
  rightPressedAt : Option ℚ
  kbStopped : Bool
  msStopped : Bool
deriving DecidableEq

/-- The state before any event (`rec = []`, `start_time = None`,
`right_pressed_time = None`, both listeners live). -/
def capInit : CapState :=
  ⟨[], none, 0, none, false, false⟩

/-- `add_delay_and_append`: the first recorded event gets delay `0.0`;
every later one gets `round(max(0.0, t - last_time), 3)`. -/
def addStep (t : ℚ) (mk : ℚ → RStep) (s : CapState) : CapState :=
  match s.startTime with
  | none =>
      { s with startTime := some t, lastTime := t, recd := s.recd ++ [mk 0] }
  | some _ =>
      { s with lastTime := t,
               recd := s.recd ++ [mk (pyRound3 (max 0 (t - s.lastTime)))] }

/-- One capture event, dispatched to `on_press` or `on_click`.  A dead
listener's events are ignored (`thr` is `stop_right_hold_sec`).  As in
the source: a right-button press records `right_pressed_time` and then
still falls through to the `if pressed:` branch, so it is recorded as a
`"Click"` step; a right-button release held at least `thr` (and with a
truthy, i.e. nonzero, recorded press time) stops the mouse listener;
releases are never recorded. -/
def procEv (thr : ℚ) (s : CapState) (e : InEv) : CapState :=
  match e with
  | .key k t =>
      if s.kbStopped then s
      else
        match k with
        | .ch c => addStep t (fun d => .kb "Type Text" c.toString d) s
        | .esc => { s with kbStopped := true }
        | .named n => addStep t (fun d => .kb "Press Key" n d) s
  | .click x y b pressed t =>
      if s.msStopped then s
      else
        let s1 := if b = .right && pressed then { s with rightPressedAt := some t } else s
        let terminal :=
          b = .right && !pressed &&
            (match s1.rightPressedAt with
             | some rpt => rpt ≠ 0 && thr ≤ t - rpt
             | none => false)
        if terminal then { s1 with msStopped := true }
        else if pressed then addStep t (fun d => .ms "Click" x y d) s1
        else s1

/-- Process a whole capture event list. -/
def captureRun (thr : ℚ) (evs : List InEv) : CapState :=
  evs.foldl (procEv thr) capInit

/-- `record_mouse_keyboard_session`: capture, then the coalescing
pass. -/
def recordSession (thr : ℚ) (evs : List InEv) : List RStep :=
  mergeSteps (captureRun thr evs).recd

/-! ## Execution engine -/

/-- Result of `pyautogui.locateCenterOnScreen`: a located centre, `None`
(image not found), or a raised exception (missing OpenCV backend
etc.). -/
inductive ImageRes where
  | found (x y : ℤ)
  | notFound
  | capError
deriving DecidableEq

/-- The engine's collaborators: the image-search lookup, the clipboard
(`none` models a `TclError` from `clipboard_get`, which the source turns
into `""`), and the user's Stop press, aligned to delay sleeps: the stop
signal is asserted during sleep number `stopAt` (counting all completed
delay sleeps of the run, 0-based), or never if `none`. -/
structure Env where
  locate : String → ImageRes
  clipboard : Option String
  stopAt : Option ℕ

/-- A leaf-action invocation issued to the OS-automation
collaborator. -/
inductive Ev where
  | moveTo (x y : ℤ)
  | click
  | write (v : String)
  | press (v : String)
  | hotkey (ks : List String)
  | locate (path : String)
  | clickAt (x y : ℤ)
deriving DecidableEq

/-- Engine state: `self.is_running`, `self.status_var`, the number of
completed delay sleeps, and the trace of leaf-action invocations, each
tagged with the sleep count at the moment it was issued. -/
structure EngState where
  running : Bool
  status : String
  sleepCount : ℕ
  trace : List (ℕ × Ev)
deriving DecidableEq

/-- A fresh run as launched from `toggle_run` (`is_running = True`)
entering `run_workflow_loop` (status set to Running). -/
def engInit : EngState :=
  ⟨true, "Status: Running...", 0, []⟩

/-- `time.sleep(delay)`: one more sleep completes; if the user pressed
Stop during this sleep (`stopAt` equals its 0-based index), the flag is
cleared by the time the sleep returns. -/
def doSleep (env : Env) (s : EngState) : EngState :=
  { s with sleepCount := s.sleepCount + 1,
           running := s.running && !(env.stopAt = some s.sleepCount : Bool) }

/-- Issue one leaf-action invocation, tagged with the current sleep
count. -/
def emit (e : Ev) (s : EngState) : EngState :=
  { s with trace := s.trace ++ [(s.sleepCount, e)] }

/-- `execute_step`: guards on `is_running`, then handles only the three
leaf types.  Mouse: always `moveTo`, then `click()` only for `"Click"`
(the other mouse actions are an elided comment in the source).
Keyboard: write / press / hotkey (split on `+`, strip).  Image: call the
locator; on success click the centre; on `None` clear the flag and set
the not-found status naming the file's base name; on an exception clear
the flag and set the generic OpenCV status.  A `conditional_record` or
`loop` step matches none of the branches and does nothing. -/
def executeStep (env : Env) (step : Step) (s : EngState) : EngState :=
  if !s.running then s
  else
    match step with
    | .mouse action x y _ =>
        let s1 := emit (.moveTo x y) s
        if action = "Click" then emit .click s1 else s1
    | .keyboard action v _ =>
        if action = "Type Text" then emit (.write v) s
        else if action = "Press Key" then emit (.press v) s
        else if action = "Hotkey" then
          emit (.hotkey ((v.splitOn "+").map String.trim)) s
        else s
    | .image p _ =>
        let s1 := emit (.locate p) s
        match env.locate p with
        | .found x y => emit (.clickAt x y) s1
        | .notFound =>
            { s1 with running := false,
                      status := "Status: Image not found '" ++ basename p ++ "'" }
        | .capError =>
            { s1 with running := false,
                      status := "Status: Image search error. Is OpenCV installed?" }
    | .condRecord _ _ _ _ => s
    | .loop _ _ _ => s

/-- The inner `for sub in ...` loop shared by
`execute_conditional_record` and `execute_loop_block`: for each
sub-step, return early if the flag is cleared, else sleep for the
sub-step's delay and call `execute_step` (which re-checks the flag
itself). -/
def execSubSteps (env : Env) : List Step → EngState → EngState
  | [], s => s
  | sub :: rest, s =>
    if !s.running then s
    else execSubSteps env rest (executeStep env sub (doSleep env s))

/-- The case test at line 770: `case.get("value","") and case["value"]
in source_text` — the value must be truthy (non-empty) and a substring
of the condition source text. -/
def caseMatches (src : String) (c : String × List Step) : Bool :=
  c.1 ≠ "" && strContains src c.1

/-- `execute_conditional_record`: guard on the flag, read the clipboard
(a `TclError` yields `""`), run the first matching case's steps and
break, or the else steps if no case matched. -/
def execCondRecord (env : Env) (cases : List (String × List Step))
    (elseSteps : List Step) (s : EngState) : EngState :=
  if !s.running then s
  else
    let src := env.clipboard.getD ""
    match cases.find? (caseMatches src) with
    | some c => execSubSteps env c.2 s
    | none => execSubSteps env elseSteps s

/-- The `for i in range(count)` loop of `execute_loop_block`: `i` is the
0-based iteration index, `r` the remaining iterations.  Each iteration
returns early if the flag is cleared, else sets the progress status and
runs the body. -/
def loopIters (env : Env) (steps : List Step) (count : ℤ) :
    ℕ → ℕ → EngState → EngState
  | _, 0, s => s
  | i, r + 1, s =>
    if !s.running then s
    else
      loopIters env steps count (i + 1) r
        (execSubSteps env steps
          { s with status := "Status: Running Loop " ++ toString (i + 1) ++ "/" ++ toString count })

/-- `execute_loop_block`: `range(count)` yields `count` iterations, none
when `count ≤ 0`. -/
def execLoopBlock (env : Env) (count : ℤ) (steps : List Step)
    (s : EngState) : EngState :=
  loopIters env steps count 0 count.toNat s

/-- The dispatcher of `run_workflow_loop`: container types go to their
block executors, everything else to `execute_step`. -/
def dispatch (env : Env) (step : Step) (s : EngState) : EngState :=
  match step with
  | .condRecord _ cases els _ => execCondRecord env cases els s
  | .loop count steps _ => execLoopBlock env count steps s
  | _ => executeStep env step s

/-- The `while self.is_running and pc < len(...)` loop: check the flag,
sleep for the step's delay, re-check the flag (`break` if cleared),
dispatch, advance. -/
def runSteps (env : Env) : List Step → EngState → EngState
  | [], s => s
  | step :: rest, s =>
    if !s.running then s
    else
      let s1 := doSleep env s
      if !s1.running then s1
      else runSteps env rest (dispatch env step s1)

/-- `run_workflow_loop`: set the Running status, walk the workflow, and
on natural completion (flag still set) clear the flag and report Idle;
a run stopped early (user Stop or image failure) keeps its last
status. -/
def runWorkflowLoop (env : Env) (wf : List Step) (s : EngState) : EngState :=
  let s1 := runSteps env wf { s with status := "Status: Running..." }
  if s1.running then { s1 with running := false, status := "Status: Idle" } else s1

/-- The leaf-action invocations of a state, without their sleep-count
tags. -/
def acts (s : EngState) : List Ev :=
  s.trace.map Prod.snd

/-- The invocation list one `execute_step` call issues from a running
state, provided the environment's lookups succeed. -/
def stepActs (env : Env) : Step → List Ev
  | .mouse action x y _ =>
      .moveTo x y :: (if action = "Click" then [.click] else [])
  | .keyboard action v _ =>
      if action = "Type Text" then [.write v]
      else if action = "Press Key" then [.press v]
      else if action = "Hotkey" then [.hotkey ((v.splitOn "+").map String.trim)]
      else []
  | .image p _ =>
      .locate p :: (match env.locate p with
                    | .found x y => [.clickAt x y]
                    | _ => [])
  | .condRecord _ _ _ _ => []
  | .loop _ _ _ => []

/-- The invocation list of one pass over a sub-step list. -/
def bodyActs (env : Env) (steps : List Step) : List Ev :=
  (steps.map (stepActs env)).flatten

/-! ## Run controller -/

/-- The controller's observable state: the shared `is_running` flag, the
run button's label, the status line, and the number of background
execution contexts spawned so far. -/
structure CtrlState where
  isRunning : Bool
  buttonText : String
  status : String
  spawned : ℕ
deriving DecidableEq

/-- `toggle_run`: while a run is in progress the press clears the flag
(asserting the stop signal) and spawns nothing; otherwise it sets the
flag and spawns one new background execution context. -/
def toggleRun (s : CtrlState) : CtrlState :=
  if s.isRunning then
    { s with isRunning := false, buttonText := "Run Workflow",
             status := "Status: Stopping..." }
  else
    { s with isRunning := true, buttonText := "Stop",
             spawned := s.spawned + 1 }

/-! ## Dialog validation -/

/-- `AddMouseStepDialog.apply`: `int(x)`, `int(y)` and `float(delay)`
inside one `try` — any parse failure leaves `result = None`.  No range
check is performed on any of the three. -/
def applyMouse (action : String) (xIn yIn : Option ℤ) (delayIn : Option ℚ) :
    Option Step :=
  match xIn, yIn, delayIn with
  | some x, some y, some d => some (.mouse action x y d)
  | _, _, _ => none

/-- `AddKeyboardStepDialog.apply`: an empty value is rejected first,
then `float(delay)` may fail.  The parsed delay is not range-checked. -/
def applyKeyboard (action value : String) (delayIn : Option ℚ) : Option Step :=
  if value = "" then none
  else
    match delayIn with
    | some d => some (.keyboard action value d)
    | none => none

/-- `AddImageStepDialog.apply`: the path must be non-empty and name an
existing file. -/
def applyImage (fileExists : String → Bool) (path : String) (delayIn : ℚ) :
    Option Step :=
  if path = "" || !fileExists path then none
  else some (.image path delayIn)

/-- `AddLoopDialog.apply`: `int(count)` may fail, and a negative count
raises `ValueError`; zero is accepted.  The delay comes from the
existing data and is not validated. -/
def applyLoop (countIn : Option ℤ) (steps : List Step) (delayIn : ℚ) :
    Option Step :=
  match countIn with
  | none => none
  | some c => if c < 0 then none else some (.loop c steps delayIn)

/-- The append in `add_step` (and `SubWorkflowEditor.add_step`): a step
is appended only when the dialog produced a result. -/
def addStepTo (wf : List Step) (res : Option Step) : List Step :=
  match res with
  | none => wf
  | some st => wf ++ [st]

/-! ## Persistence -/

/-- A JSON document tree.  Integers and floats are distinct JSON-text
shapes (`3` vs `3.0`) and round-trip to distinct Python values, so they
are distinct constructors. -/
inductive Json where
  | str (s : String)
  | int (n : ℤ)
  | num (q : ℚ)
  | arr (xs : List Json)
  | obj (fields : List (String × Json))

mutual

/-- The document object `json.dump` writes for one step dictionary,
with exactly the keys the dialogs construct. -/
def stepToJson : Step → Json
  | .mouse a x y d =>
      .obj [("type", .str "mouse"), ("action", .str a), ("x", .int x),
            ("y", .int y), ("delay", .num d)]
  | .keyboard a v d =>
      .obj [("type", .str "keyboard"), ("action", .str a),
            ("value", .str v), ("delay", .num d)]
  | .image p d =>
      .obj [("type", .str "image"), ("path", .str p), ("delay", .num d)]
  | .condRecord src cases els d =>
      .obj [("type", .str "conditional_record"), ("source", .str src),
            ("cases", .arr (casesToJson cases)),
            ("else_steps", .arr (stepsToJson els)), ("delay", .num d)]
  | .loop n steps d =>
      .obj [("type", .str "loop"), ("count", .int n),
            ("steps", .arr (stepsToJson steps)), ("delay", .num d)]

/-- Encode a step list element by element. -/
def stepsToJson : List Step → List Json
  | [] => []
  | s :: rest => stepToJson s :: stepsToJson rest

/-- Encode a case list: each case is an object with `value` and
`steps`. -/
def casesToJson : List (String × List Step) → List Json
  | [] => []
  | (v, steps) :: rest =>
      .obj [("value", .str v), ("steps", .arr (stepsToJson steps))] :: casesToJson rest

end

/-- First-match key lookup in a JSON object's field list (Python dict
keys are unique, so first-match agrees with dict access). -/
def lookupJ : List (String × Json) → String → Option Json
  | [], _ => none
  | (k, v) :: rest, key => if k = key then some v else lookupJ rest key

theorem sizeOf_lookupJ {fields : List (String × Json)} {key : String}
    {v : Json} (h : lookupJ fields key = some v) :
    sizeOf v < sizeOf (Json.obj fields) := by
  induction fields with
  | nil => simp [lookupJ] at h
  | cons p rest ih =>
    obtain ⟨k, w⟩ := p
    by_cases hk : k = key
    · simp [lookupJ, hk] at h
      subst h
      simp
      omega
    · simp [lookupJ, hk] at h
      have := ih h
      simp at this ⊢
      omega

mutual

/-- Modelled from the spec (§6): the source has no explicit
deserializer (`json.load` returns the dictionary structure directly and
the engine reads fields by key), so the decoder reads each step object's
named fields — `type`, `action`, `x`, `y`, `value`, `path`, `source`,
`cases`, `else_steps`, `count`, `steps`, `delay` — by key lookup. -/
def stepFromJson (j : Json) : Option Step :=
  match j with
  | .obj fields =>
    match lookupJ fields "type" with
    | some (.str "mouse") =>
        match lookupJ fields "action", lookupJ fields "x",
              lookupJ fields "y", lookupJ fields "delay" with
        | some (.str a), some (.int x), some (.int y), some (.num d) =>
            some (.mouse a x y d)
        | _, _, _, _ => none
    | some (.str "keyboard") =>
        match lookupJ fields "action", lookupJ fields "value",
              lookupJ fields "delay" with
        | some (.str a), some (.str v), some (.num d) =>
            some (.keyboard a v d)
        | _, _, _ => none
    | some (.str "image") =>
        match lookupJ fields "path", lookupJ fields "delay" with
        | some (.str p), some (.num d) => some (.image p d)
        | _, _ => none
    | some (.str "conditional_record") =>
        match lookupJ fields "source", lookupJ fields "delay" with
        | some (.str src), some (.num d) =>
            match hc : lookupJ fields "cases",
                  he : lookupJ fields "else_steps" with
            | some (.arr cs), some (.arr es) =>
                match casesFromJson cs, stepsFromJson es with
                | some cases, some els => some (.condRecord src cases els d)
                | _, _ => none
            | _, _ => none
        | _, _ => none
    | some (.str "loop") =>
        match lookupJ fields "count", lookupJ fields "delay" with
        | some (.int n), some (.num d) =>
            match hs : lookupJ fields "steps" with
            | some (.arr ss) =>
                match stepsFromJson ss with
                | some steps => some (.loop n steps d)
                | none => none
            | _ => none
        | _, _ => none
    | _ => none
  | _ => none
  termination_by sizeOf j
  decreasing_by
  · have h1 := sizeOf_lookupJ hc
    simp at h1 ⊢
    omega
  · have h1 := sizeOf_lookupJ he
    simp at h1 ⊢
    omega
  · have h1 := sizeOf_lookupJ hs
    simp at h1 ⊢
    omega

/-- Decode a step array element by element. -/
def stepsFromJson (l : List Json) : Option (List Step) :=
  match l with
  | [] => some []
  | j :: rest =>
    match stepFromJson j, stepsFromJson rest with
    | some s, some ss => some (s :: ss)
    | _, _ => none
  termination_by sizeOf l
  decreasing_by
  · simp
    omega
  · simp

/-- Decode a case array: each element must be an object with a string
`value` and an array `steps`. -/
def casesFromJson (l : List Json) : Option (List (String × List Step)) :=
  match l with
  | [] => some []
  | j :: rest =>
    match j with
    | .obj fields =>
      match lookupJ fields "value" with
      | some (.str v) =>
          match hs : lookupJ fields "steps" with
          | some (.arr ss) =>
              match stepsFromJson ss, casesFromJson rest with
              | some steps, some cs => some ((v, steps) :: cs)
              | _, _ => none
          | _ => none
      | _ => none
    | _ => none
  termination_by sizeOf l
  decreasing_by
  · have h1 := sizeOf_lookupJ hs
    simp at h1 ⊢
    omega
  · simp

end

/-- `save_workflow`: the written document is the array of the
workflow's step objects. -/
def saveWorkflow (wf : List Step) : Json :=
  .arr (stepsToJson wf)

/-- `load_workflow`: read a step sequence back from a document. -/
def loadWorkflow : Json → Option (List Step)
  | .arr xs => stepsFromJson xs
  | _ => none

/-! # Theorems -/

theorem str_append_ne_empty {buf : String} (v : String) (h : buf ≠ "") :
    buf ++ v ≠ "" := by
  intro hav
  apply h
  have hlen : (buf ++ v).length = 0 := by rw [hav]; rfl
  rw [String.length_append] at hlen
  have hb : buf.length = 0 := by omega
  have hd : buf.data.length = 0 := hb
  cases buf with
  | mk data => cases data with
    | nil => rfl
    | cons c cs => simp at hd

theorem charType_val_ne_empty {s : RStep} (h : s.isCharType = true) :
    s.valOf ≠ "" := by
  cases s with
  | kb a v d =>
    simp [RStep.isCharType] at h
    simp [RStep.valOf]
    intro hv
    rw [hv] at h
    exact absurd h.2 (by decide)
  | ms a x y d => simp [RStep.isCharType] at h

/-- The merge loop agrees with the spec-level run coalescing, stated
for both an empty and a non-empty buffer and proved by strong induction
on the remaining list. -/
theorem mergeGo_spec :
    ∀ n l, List.length l ≤ n →
      (∀ bdel, mergeGo l "" bdel = coalesceSpec l) ∧
      (∀ buf bdel, buf ≠ "" →
        mergeGo l buf bdel =
          .kb "Type Text"
              (buf ++ concatAll ((l.takeWhile RStep.isCharType).map RStep.valOf)) bdel ::
            coalesceSpec (l.dropWhile RStep.isCharType)) := by
  intro n
  induction n with
  | zero =>
    intro l hl
    have : l = [] := List.length_eq_zero.mp (Nat.le_zero.mp hl)
    subst this
    constructor
    · intro bdel
      simp [mergeGo, coalesceSpec]
    · intro buf bdel hbuf
      simp [mergeGo, coalesceSpec, concatAll, hbuf]
  | succ n ih =>
    intro l hl
    match l with
    | [] =>
      constructor
      · intro bdel
        simp [mergeGo, coalesceSpec]
      · intro buf bdel hbuf
        simp [mergeGo, coalesceSpec, concatAll, hbuf]
    | s :: rest =>
      have hrest : rest.length ≤ n := by
        simp at hl
        omega
      by_cases hchar : s.isCharType = true
      · constructor
        · intro bdel
          have hv := charType_val_ne_empty hchar
          rw [mergeGo]
          simp only [hchar, if_true, String.empty_append]
          rw [((ih rest hrest).2) s.valOf s.delayOf hv]
          rw [coalesceSpec]
          simp [hchar]
        · intro buf bdel hbuf
          rw [mergeGo]
          simp only [hchar, if_true]
          rw [if_neg hbuf]
          rw [((ih rest hrest).2) (buf ++ s.valOf) bdel (str_append_ne_empty _ hbuf)]
          have htake : (s :: rest).takeWhile RStep.isCharType =
              s :: rest.takeWhile RStep.isCharType := by
            simp [List.takeWhile_cons, hchar]
          have hdrop : (s :: rest).dropWhile RStep.isCharType =
              rest.dropWhile RStep.isCharType := by
            simp [List.dropWhile_cons, hchar]
          rw [htake, hdrop]
          simp [concatAll, String.append_assoc]
      · have hc : s.isCharType = false := Bool.not_eq_true _ |>.mp hchar
        constructor
        · intro bdel
          rw [mergeGo]
          simp only [hc, if_neg, Bool.false_eq_true, if_false]
          rw [((ih rest hrest).1) bdel]
          rw [coalesceSpec]
          simp [hc]
        · intro buf bdel hbuf
          rw [mergeGo]
          simp only [hc, Bool.false_eq_true, if_false]
          rw [if_neg hbuf]
          rw [((ih rest hrest).1) bdel]
          have htake : (s :: rest).takeWhile RStep.isCharType = [] := by
            simp [List.takeWhile_cons, hc]
          have hdrop : (s :: rest).dropWhile RStep.isCharType = s :: rest := by
            simp [List.dropWhile_cons, hc]
          rw [htake, hdrop]
          rw [coalesceSpec]
          simp [hc, concatAll]

theorem merge_eq_coalesce (l : List RStep) : mergeSteps l = coalesceSpec l :=
  (mergeGo_spec l.length l (Nat.le_refl _)).1 0

/-! ## Engine lemmas: the success path -/

theorem doSleep_no_stop {env : Env} (hstop : env.stopAt = none) (s : EngState) :
    doSleep env s = { s with sleepCount := s.sleepCount + 1 } := by
  simp [doSleep, hstop]

theorem executeStep_not_running {env : Env} {s : EngState} (st : Step)
    (h : s.running = false) : executeStep env st s = s := by
  simp [executeStep, h]

theorem runSteps_not_running {env : Env} {s : EngState} (l : List Step)
    (h : s.running = false) : runSteps env l s = s := by
  cases l with
  | nil => rfl
  | cons st rest => simp [runSteps, h]

theorem execSubSteps_not_running {env : Env} {s : EngState} (l : List Step)
    (h : s.running = false) : execSubSteps env l s = s := by
  cases l with
  | nil => rfl
  | cons st rest => simp [execSubSteps, h]

/-- When every image lookup succeeds, `execute_step` from a running
state stays running, issues exactly `stepActs`, and touches neither the
sleep count nor the status. -/
theorem executeStep_ok {env : Env} {s : EngState} (st : Step)
    (h : s.running = true)
    (hloc : ∀ p, ∃ x y, env.locate p = .found x y) :
    (executeStep env st s).running = true ∧
    (executeStep env st s).trace =
      s.trace ++ (stepActs env st).map (fun e => (s.sleepCount, e)) ∧
    (executeStep env st s).sleepCount = s.sleepCount ∧
    (executeStep env st s).status = s.status := by
  cases st with
  | mouse action x y d =>
    by_cases ha : action = "Click" <;>
      simp [executeStep, h, emit, stepActs, ha]
  | keyboard action v d =>
    by_cases h1 : action = "Type Text"
    · simp [executeStep, h, emit, stepActs, h1]
    · by_cases h2 : action = "Press Key"
      · simp [executeStep, h, emit, stepActs, h1, h2]
      · by_cases h3 : action = "Hotkey" <;>
          simp [executeStep, h, emit, stepActs, h1, h2, h3]
  | image p d =>
    obtain ⟨x, y, hxy⟩ := hloc p
    simp [executeStep, h, emit, stepActs, hxy]
  | condRecord src cases els d => simp [executeStep, h, stepActs]
  | loop n steps d => simp [executeStep, h, stepActs]

/-- One pass over a sub-step list under no stop signal and successful
lookups: the engine stays running and issues exactly the body's
invocations, in order. -/
theorem execSubSteps_ok {env : Env} (hstop : env.stopAt = none)
    (hloc : ∀ p, ∃ x y, env.locate p = .found x y) :
    ∀ (l : List Step) (s : EngState), s.running = true →
      (execSubSteps env l s).running = true ∧
      acts (execSubSteps env l s) = acts s ++ bodyActs env l := by
  intro l
  induction l with
  | nil => intro s h; simp [execSubSteps, bodyActs, h]
  | cons sub rest ih =>
    intro s h
    rw [execSubSteps]
    simp only [h, Bool.not_true, Bool.false_eq_true, if_false]
    rw [doSleep_no_stop hstop]
    have hrun1 : (({ s with sleepCount := s.sleepCount + 1 } : EngState)).running = true := h
    obtain ⟨hr2, htr2, _, _⟩ := executeStep_ok sub hrun1 hloc
    obtain ⟨hr3, ha3⟩ := ih _ hr2
    refine ⟨hr3, ?_⟩
    rw [ha3]
    have : acts (executeStep env sub { s with sleepCount := s.sleepCount + 1 }) =
        acts s ++ stepActs env sub := by
      simp [acts, htr2]
    rw [this]
    simp [bodyActs, List.append_assoc]

/-- The loop iterations under no stop signal and successful lookups:
each of the `r` remaining iterations issues exactly one body pass. -/
theorem loopIters_ok {env : Env} (hstop : env.stopAt = none)
    (hloc : ∀ p, ∃ x y, env.locate p = .found x y)
    (steps : List Step) (count : ℤ) :
    ∀ (r i : ℕ) (s : EngState), s.running = true →
      (loopIters env steps count i r s).running = true ∧
      acts (loopIters env steps count i r s) =
        acts s ++ (List.replicate r (bodyActs env steps)).flatten := by
  intro r
  induction r with
  | zero => intro i s h; simp [loopIters, h]
  | succ r ih =>
    intro i s h
    rw [loopIters, if_neg (by simp [h])]
    have hrun1 : (({ s with status := "Status: Running Loop " ++ toString (i + 1) ++ "/" ++ toString count } : EngState)).running = true := h
    obtain ⟨hr2, ha2⟩ := execSubSteps_ok hstop hloc steps _ hrun1
    obtain ⟨hr3, ha3⟩ := ih (i + 1) _ hr2
    refine ⟨hr3, ?_⟩
    rw [ha3, ha2]
    have : acts ({ s with status := "Status: Running Loop " ++ toString (i + 1) ++ "/" ++ toString count } : EngState) = acts s := rfl
    rw [this, List.replicate_succ, List.flatten_cons, ← List.append_assoc]

/-! ## Engine lemmas: the stop-signal invariant -/

/-- Invariant for a run whose Stop press happens during sleep number
`n`: every issued invocation is tagged by a sleep count at most `n`,
and while the engine is still running at most `n` sleeps have
completed. -/
def StopInv (n : ℕ) (s : EngState) : Prop :=
  (∀ p ∈ s.trace, p.1 ≤ n) ∧ (s.running = true → s.sleepCount ≤ n)

theorem stopInv_doSleep {env : Env} {n : ℕ} (hstop : env.stopAt = some n)
    {s : EngState} (h : StopInv n s) : StopInv n (doSleep env s) := by
  obtain ⟨htr, hsl⟩ := h
  refine ⟨htr, ?_⟩
  intro hr
  simp only [doSleep, hstop] at hr ⊢
  simp at hr
  have := hsl hr.1
  have hne := hr.2
  omega

theorem stopInv_emit {n : ℕ} {s : EngState} (e : Ev)
    (h : StopInv n s) (hc : s.sleepCount ≤ n) : StopInv n (emit e s) := by
  obtain ⟨htr, hsl⟩ := h
  constructor
  · intro p hp
    simp only [emit, List.mem_append, List.mem_singleton] at hp
    rcases hp with hp | hp
    · exact htr p hp
    · subst hp
      exact hc
  · intro hr
    exact hsl hr

theorem stopInv_executeStep {env : Env} {n : ℕ} {s : EngState} (st : Step)
    (h : StopInv n s) : StopInv n (executeStep env st s) := by
  by_cases hrun : s.running = true
  · have hc : s.sleepCount ≤ n := h.2 hrun
    cases st with
    | mouse action x y d =>
      rw [executeStep, if_neg (by simp [hrun])]
      by_cases ha : action = "Click"
      · rw [if_pos ha]
        exact stopInv_emit _ (stopInv_emit _ h hc) hc
      · rw [if_neg ha]
        exact stopInv_emit _ h hc
    | keyboard action v d =>
      rw [executeStep, if_neg (by simp [hrun])]
      split_ifs <;> first
        | exact stopInv_emit _ h hc
        | exact h
    | image p d =>
      rw [executeStep, if_neg (by simp [hrun])]
      have h1 : StopInv n (emit (.locate p) s) := stopInv_emit _ h hc
      rcases henv : env.locate p with ⟨x, y⟩ | _ | _
      · exact stopInv_emit _ h1 hc
      · exact ⟨h1.1, by intro hr; simp at hr⟩
      · exact ⟨h1.1, by intro hr; simp at hr⟩
    | condRecord src cases els d =>
      rw [executeStep, if_neg (by simp [hrun])]
      exact h
    | loop m steps d =>
      rw [executeStep, if_neg (by simp [hrun])]
      exact h
  · rw [executeStep_not_running st (Bool.not_eq_true _ |>.mp hrun)]
    exact h

theorem stopInv_execSubSteps {env : Env} {n : ℕ} (hstop : env.stopAt = some n) :
    ∀ (l : List Step) {s : EngState}, StopInv n s →
      StopInv n (execSubSteps env l s) := by
  intro l
  induction l with
  | nil => intro s h; exact h
  | cons sub rest ih =>
    intro s h
    rw [execSubSteps]
    by_cases hrun : s.running = true
    · rw [if_neg (by simp [hrun])]
      exact ih (stopInv_executeStep _ (stopInv_doSleep hstop h))
    · rw [if_pos (by simp [Bool.not_eq_true _ |>.mp hrun])]
      exact h

theorem stopInv_loopIters {env : Env} {n : ℕ} (hstop : env.stopAt = some n)
    (steps : List Step) (count : ℤ) :
    ∀ (r i : ℕ) {s : EngState}, StopInv n s →
      StopInv n (loopIters env steps count i r s) := by
  intro r
  induction r with
  | zero => intro i s h; exact h
  | succ r ih =>
    intro i s h
    rw [loopIters]
    by_cases hrun : s.running = true
    · rw [if_neg (by simp [hrun])]
      exact ih _ (stopInv_execSubSteps hstop _ ⟨h.1, fun _ => h.2 hrun⟩)
    · rw [if_pos (by simp [Bool.not_eq_true _ |>.mp hrun])]
      exact h

theorem stopInv_dispatch {env : Env} {n : ℕ} (hstop : env.stopAt = some n)
    (st : Step) {s : EngState} (h : StopInv n s) :
    StopInv n (dispatch env st s) := by
  cases st with
  | condRecord src cases els d =>
    rw [dispatch, execCondRecord]
    by_cases hrun : s.running = true
    · rw [if_neg (by simp [hrun])]
      rcases hfind : List.find? (caseMatches (env.clipboard.getD "")) cases with _ | c
      · simp only [hfind]
        exact stopInv_execSubSteps hstop _ h
      · simp only [hfind]
        exact stopInv_execSubSteps hstop _ h
    · rw [if_pos (by simp [Bool.not_eq_true _ |>.mp hrun])]
      exact h
  | loop m steps d =>
    exact stopInv_loopIters hstop _ _ _ _ h
  | mouse action x y d => exact stopInv_executeStep _ h
  | keyboard action v d => exact stopInv_executeStep _ h
  | image p d => exact stopInv_executeStep _ h

theorem stopInv_runSteps {env : Env} {n : ℕ} (hstop : env.stopAt = some n) :
    ∀ (l : List Step) {s : EngState}, StopInv n s →
      StopInv n (runSteps env l s) := by
  intro l
  induction l with
  | nil => intro s h; exact h
  | cons st rest ih =>
    intro s h
    rw [runSteps]
    by_cases hrun : s.running = true
    · rw [if_neg (by simp [hrun])]
      have h1 := stopInv_doSleep hstop h
      by_cases hrun1 : (doSleep env s).running = true
      · rw [if_neg (by simp [hrun1])]
        exact ih (stopInv_dispatch hstop st h1)
      · rw [if_pos (by simp [Bool.not_eq_true _ |>.mp hrun1])]
        exact h1
    · rw [if_pos (by simp [Bool.not_eq_true _ |>.mp hrun])]
      exact h

theorem runWorkflowLoop_running_false (env : Env) (wf : List Step)
    (s : EngState) : (runWorkflowLoop env wf s).running = false := by
  rw [runWorkflowLoop]
  by_cases h : (runSteps env wf { s with status := "Status: Running..." }).running = true
  · rw [if_pos h]
  · rw [if_neg h]
    exact Bool.not_eq_true _ |>.mp h

/-- C6: the recorder coalescing pass merges each maximal run of
consecutive single-character type-text events into one type-text step
whose value is the concatenated characters and whose delay is the first
merged event's delay; any other event flushes the accumulator before
being emitted itself, and a trailing non-empty accumulator is flushed
at end of stream (`mergeSteps` equals the spec-level `coalesceSpec` on
every stream); in particular the raw events
`[a, 100ms] [b, 50ms] [click] [c, 80ms]` normalize to
`[TypeText "ab" 100ms, MouseClick, TypeText "c" 80ms]`. -/
theorem recorder_coalescing_spec :
    (∀ l : List RStep, mergeSteps l = coalesceSpec l) ∧
    mergeSteps
        [.kb "Type Text" "a" (1/10), .kb "Type Text" "b" (1/20),
         .ms "Click" 5 7 0, .kb "Type Text" "c" (2/25)] =
      [.kb "Type Text" "ab" (1/10), .ms "Click" 5 7 0,
       .kb "Type Text" "c" (2/25)] := by
  constructor
  · exact merge_eq_coalesce
  · rfl

/-! ## Claim theorems: execution engine -/

theorem find?_append_first {α : Type} (p : α → Bool) (c : α) :
    ∀ (pre post : List α), (∀ x ∈ pre, p x = false) → p c = true →
      List.find? p (pre ++ c :: post) = some c := by
  intro pre
  induction pre with
  | nil =>
    intro post _ hc
    simp [List.find?_cons, hc]
  | cons a rest ih =>
    intro post hpre hc
    have ha := hpre a (List.mem_cons_self a rest)
    simp only [List.cons_append, List.find?_cons, ha]
    exact ih post (fun x hx => hpre x (List.mem_cons_of_mem _ hx)) hc

theorem find?_middle_false {α : Type} (p : α → Bool) (x : α) (hx : p x = false) :
    ∀ (pre post : List α),
      List.find? p (pre ++ x :: post) = List.find? p (pre ++ post) := by
  intro pre post
  induction pre with
  | nil => simp [List.find?_cons, hx]
  | cons a rest ih =>
    simp only [List.cons_append, List.find?_cons]
    cases p a <;> simp [ih]

/-- C1 (amended): a `NotFound` image lookup, and equally a raised
capability error, halts the run immediately after the image step — the
running flag is cleared and the result does not depend on the remaining
steps, which are left unexecuted; on `NotFound` the last status names
the image file's base name, while on a capability error the last status
is the generic OpenCV message, which does not name the file. -/
theorem image_failure_halts (env : Env) (p : String) (d : ℚ)
    (post : List Step) (s : EngState) (h : s.running = true)
    (hstop : env.stopAt = none) :
    (env.locate p = .notFound →
      runSteps env (.image p d :: post) s =
        { running := false,
          status := "Status: Image not found '" ++ basename p ++ "'",
          sleepCount := s.sleepCount + 1,
          trace := s.trace ++ [(s.sleepCount + 1, .locate p)] }) ∧
    (env.locate p = .capError →
      runSteps env (.image p d :: post) s =
        { running := false,
          status := "Status: Image search error. Is OpenCV installed?",
          sleepCount := s.sleepCount + 1,
          trace := s.trace ++ [(s.sleepCount + 1, .locate p)] }) := by
  constructor
  · intro henv
    rw [runSteps, if_neg (by simp [h]), doSleep_no_stop hstop,
        if_neg (by simp [h])]
    have hex : dispatch env (.image p d) { s with sleepCount := s.sleepCount + 1 } =
        { running := false,
          status := "Status: Image not found '" ++ basename p ++ "'",
          sleepCount := s.sleepCount + 1,
          trace := s.trace ++ [(s.sleepCount + 1, .locate p)] } := by
      simp [dispatch, executeStep, emit, h, henv]
    rw [hex, runSteps_not_running post rfl]
  · intro henv
    rw [runSteps, if_neg (by simp [h]), doSleep_no_stop hstop,
        if_neg (by simp [h])]
    have hex : dispatch env (.image p d) { s with sleepCount := s.sleepCount + 1 } =
        { running := false,
          status := "Status: Image search error. Is OpenCV installed?",
          sleepCount := s.sleepCount + 1,
          trace := s.trace ++ [(s.sleepCount + 1, .locate p)] } := by
      simp [dispatch, executeStep, emit, h, henv]
    rw [hex, runSteps_not_running post rfl]

theorem image_failure_halts_witness :
    runSteps ⟨fun _ => .notFound, some "", none⟩
        [.image "a/b.png" 0, .keyboard "Type Text" "z" 0] engInit =
      { running := false, status := "Status: Image not found 'b.png'",
        sleepCount := 1, trace := [(1, .locate "a/b.png")] } ∧
    runSteps ⟨fun _ => .capError, some "", none⟩ [.image "a/b.png" 0] engInit =
      { running := false,
        status := "Status: Image search error. Is OpenCV installed?",
        sleepCount := 1, trace := [(1, .locate "a/b.png")] } :=
  ⟨(image_failure_halts ⟨fun _ => .notFound, some "", none⟩ "a/b.png" 0
      [.keyboard "Type Text" "z" 0] engInit rfl rfl).1 rfl,
   (image_failure_halts ⟨fun _ => .capError, some "", none⟩ "a/b.png" 0
      [] engInit rfl rfl).2 rfl⟩

/-- C1 counterexample: on a capability error the run halts, but the
final status is the generic OpenCV message, which does not name the
failing image file's base name. -/
theorem image_failure_status_cex :
    (runWorkflowLoop ⟨fun _ => .capError, some "", none⟩
        [.image "shots/target.png" 0] engInit).running = false ∧
    (runWorkflowLoop ⟨fun _ => .capError, some "", none⟩
        [.image "shots/target.png" 0] engInit).status =
      "Status: Image search error. Is OpenCV installed?" ∧
    strContains
        (runWorkflowLoop ⟨fun _ => .capError, some "", none⟩
          [.image "shots/target.png" 0] engInit).status "target.png" = false :=
  ⟨rfl, rfl, rfl⟩

/-- C2 (amended): case matching requires a non-empty case value that is
a substring of the condition source text, evaluated in case order with
first-match-wins: when no earlier case matches and `c` does, exactly
`c`'s steps execute in order and the else steps do not; when no case
matches, the else steps execute exactly once in order. -/
theorem cond_first_match_semantics (env : Env) (s : EngState)
    (h : s.running = true) (hstop : env.stopAt = none)
    (hloc : ∀ p, ∃ x y, env.locate p = .found x y) :
    (∀ (pre : List (String × List Step)) (c : String × List Step)
        (post : List (String × List Step)) (els : List Step),
      (∀ c0 ∈ pre, caseMatches (env.clipboard.getD "") c0 = false) →
      caseMatches (env.clipboard.getD "") c = true →
      acts (execCondRecord env (pre ++ c :: post) els s) =
        acts s ++ bodyActs env c.2) ∧
    (∀ (cases : List (String × List Step)) (els : List Step),
      (∀ c0 ∈ cases, caseMatches (env.clipboard.getD "") c0 = false) →
      acts (execCondRecord env cases els s) = acts s ++ bodyActs env els) := by
  constructor
  · intro pre c post els hpre hc
    have hfind := find?_append_first (caseMatches (env.clipboard.getD "")) c pre post hpre hc
    rw [execCondRecord, if_neg (by simp [h])]
    simp only [hfind]
    exact (execSubSteps_ok hstop hloc c.2 s h).2
  · intro cases els hnone
    have hfind : List.find? (caseMatches (env.clipboard.getD "")) cases = none := by
      rw [List.find?_eq_none]
      intro x hx
      simp [hnone x hx]
    rw [execCondRecord, if_neg (by simp [h])]
    simp only [hfind]
    exact (execSubSteps_ok hstop hloc els s h).2

theorem cond_first_match_semantics_witness :
    acts (execCondRecord ⟨fun _ => .found 1 2, some "abc", none⟩
        [("b", [.keyboard "Type Text" "X" 0])] [.keyboard "Type Text" "E" 0]
        engInit) =
      acts engInit ++
        bodyActs ⟨fun _ => .found 1 2, some "abc", none⟩
          [.keyboard "Type Text" "X" 0] ∧
    acts (execCondRecord ⟨fun _ => .found 1 2, some "xyz", none⟩
        [("b", [.keyboard "Type Text" "X" 0])] [.keyboard "Type Text" "E" 0]
        engInit) =
      acts engInit ++
        bodyActs ⟨fun _ => .found 1 2, some "xyz", none⟩
          [.keyboard "Type Text" "E" 0] :=
  ⟨(cond_first_match_semantics ⟨fun _ => .found 1 2, some "abc", none⟩ engInit
      rfl rfl (fun _ => ⟨1, 2, rfl⟩)).1 [] ("b", [.keyboard "Type Text" "X" 0])
      [] [.keyboard "Type Text" "E" 0] (by intro c0 hc0; simp at hc0) rfl,
   (cond_first_match_semantics ⟨fun _ => .found 1 2, some "xyz", none⟩ engInit
      rfl rfl (fun _ => ⟨1, 2, rfl⟩)).2 [("b", [.keyboard "Type Text" "X" 0])]
      [.keyboard "Type Text" "E" 0]
      (by intro c0 hc0; rw [List.mem_singleton] at hc0; subst hc0; rfl)⟩

/-- C2 counterexample: the first case's value `""` is a substring of
the source text `"abc"`, so under matching-as-substring-containment its
steps should execute; the engine instead runs the else steps. -/
theorem cond_substring_claim_cex :
    strContains "abc" "" = true ∧
    acts (execCondRecord ⟨fun _ => .found 1 2, some "abc", none⟩
        [("", [.keyboard "Type Text" "X" 0])] [.keyboard "Type Text" "E" 0]
        engInit) = [.write "E"] :=
  ⟨rfl, rfl⟩

/-- C10: a case whose value is the empty string never matches — the
step behaves exactly as if that case were absent — even though the
empty string is a substring of every source text. -/
theorem empty_value_case_never_matches :
    (∀ src : String, strContains src "" = true) ∧
    (∀ (env : Env) (cs : List Step) (pre post : List (String × List Step))
        (els : List Step) (s : EngState),
      execCondRecord env (pre ++ ("", cs) :: post) els s =
        execCondRecord env (pre ++ post) els s) := by
  constructor
  · intro src
    cases hsd : src.data with
    | nil => simp [strContains, hsd, occursIn]
    | cons c rest => simp [strContains, hsd, occursIn, List.isPrefixOf]
  · intro env cs pre post els s
    have heq : List.find? (caseMatches (env.clipboard.getD ""))
        (pre ++ ("", cs) :: post) =
        List.find? (caseMatches (env.clipboard.getD "")) (pre ++ post) :=
      find?_middle_false _ _ rfl pre post
    simp only [execCondRecord, heq]

/-- C3: a Loop step with `count = 0` executes nothing at all (the state
is returned unchanged, so zero leaf-action invocations are issued and
the engine advances immediately, apart from the step's own delay); in
general, under no stop signal and successful lookups, the body's
invocations are issued exactly `count` times, sequentially and in
order. -/
theorem loop_count_semantics :
    (∀ (env : Env) (steps : List Step) (s : EngState),
      execLoopBlock env 0 steps s = s) ∧
    (∀ (env : Env) (count : ℤ) (steps : List Step) (s : EngState),
      env.stopAt = none → (∀ p, ∃ x y, env.locate p = .found x y) →
      s.running = true →
      acts (execLoopBlock env count steps s) =
        acts s ++ (List.replicate count.toNat (bodyActs env steps)).flatten) := by
  constructor
  · intro env steps s
    rfl
  · intro env count steps s hstop hloc h
    exact (loopIters_ok hstop hloc steps count count.toNat 0 s h).2

theorem loop_count_semantics_witness :
    acts (execLoopBlock ⟨fun _ => .found 1 2, some "", none⟩ 2
        [.keyboard "Type Text" "hi" 0] engInit) =
      acts engInit ++
        (List.replicate (Int.toNat 2)
          (bodyActs ⟨fun _ => .found 1 2, some "", none⟩
            [.keyboard "Type Text" "hi" 0])).flatten :=
  loop_count_semantics.2 ⟨fun _ => .found 1 2, some "", none⟩ 2
    [.keyboard "Type Text" "hi" 0] engInit rfl (fun _ => ⟨1, 2, rfl⟩) rfl

/-- C4: when the user asserts the stop signal during sleep number `n`
of a run, the run ends with the flag cleared and every leaf-action
invocation of the whole run was issued before that sleep completed (its
sleep-count tag is at most `n`) — no further leaf action executes after
the interrupted sleep. -/
theorem stop_during_sleep_halts (env : Env) (wf : List Step) (n : ℕ)
    (hstop : env.stopAt = some n) :
    (runWorkflowLoop env wf engInit).running = false ∧
    ∀ p ∈ (runWorkflowLoop env wf engInit).trace, p.1 ≤ n := by
  refine ⟨runWorkflowLoop_running_false env wf engInit, ?_⟩
  intro p hp
  rw [runWorkflowLoop] at hp
  have h1 : StopInv n (runSteps env wf { engInit with status := "Status: Running..." }) :=
    stopInv_runSteps hstop wf
      ⟨by intro q hq; simp [engInit] at hq, fun _ => Nat.zero_le n⟩
  by_cases h : (runSteps env wf { engInit with status := "Status: Running..." }).running = true
  · rw [if_pos h] at hp
    exact h1.1 p hp
  · rw [if_neg h] at hp
    exact h1.1 p hp

theorem stop_during_sleep_halts_witness :
    (runWorkflowLoop ⟨fun _ => .found 0 0, none, some 1⟩
        [.keyboard "Type Text" "a" 0, .keyboard "Type Text" "b" 0,
         .keyboard "Type Text" "c" 0] engInit).running = false ∧
    ∀ p ∈ (runWorkflowLoop ⟨fun _ => .found 0 0, none, some 1⟩
        [.keyboard "Type Text" "a" 0, .keyboard "Type Text" "b" 0,
         .keyboard "Type Text" "c" 0] engInit).trace, p.1 ≤ 1 :=
  stop_during_sleep_halts ⟨fun _ => .found 0 0, none, some 1⟩
    [.keyboard "Type Text" "a" 0, .keyboard "Type Text" "b" 0,
     .keyboard "Type Text" "c" 0] 1 rfl

/-! ## Claim theorems: run controller -/

/-- C5 (amended): the controller exposes a single toggle.  Invoked
while a run is in progress it acts as Stop: it clears the running flag
(asserting the stop signal) and spawns no new execution context — so a
Start while running cannot occur and no second concurrent context is
created from a running state.  Invoked while idle it starts exactly one
new execution context. -/
theorem toggle_run_controller (s : CtrlState) :
    (s.isRunning = true →
      toggleRun s = { s with isRunning := false, buttonText := "Run Workflow",
                             status := "Status: Stopping..." }) ∧
    (s.isRunning = false →
      (toggleRun s).isRunning = true ∧ (toggleRun s).spawned = s.spawned + 1) := by
  constructor
  · intro h
    simp [toggleRun, h]
  · intro h
    simp [toggleRun, h]

theorem toggle_run_controller_witness :
    toggleRun ⟨true, "Stop", "Status: Running...", 1⟩ =
      ⟨false, "Run Workflow", "Status: Stopping...", 1⟩ ∧
    (toggleRun ⟨false, "Run Workflow", "Status: Idle", 1⟩).isRunning = true ∧
    (toggleRun ⟨false, "Run Workflow", "Status: Idle", 1⟩).spawned = 2 :=
  ⟨(toggle_run_controller ⟨true, "Stop", "Status: Running...", 1⟩).1 rfl,
   ((toggle_run_controller ⟨false, "Run Workflow", "Status: Idle", 1⟩).2 rfl).1,
   ((toggle_run_controller ⟨false, "Run Workflow", "Status: Idle", 1⟩).2 rfl).2⟩

/-- C5 counterexample: the press that stops a run is not idempotent —
pressing the same control again (now in the idle state) starts a new
run and spawns a second execution context. -/
theorem toggle_stop_not_idempotent_cex :
    (toggleRun ⟨true, "Stop", "Status: Running...", 1⟩).isRunning = false ∧
    (toggleRun (toggleRun ⟨true, "Stop", "Status: Running...", 1⟩)).isRunning = true ∧
    (toggleRun (toggleRun ⟨true, "Stop", "Status: Running...", 1⟩)).spawned = 2 :=
  ⟨rfl, rfl, rfl⟩

/-! ## Claim theorems: dialog validation -/

/-- C8 (amended): a non-numeric coordinate, delay or repeat count, an
empty keyboard value, or a negative loop repeat count makes
construction fail (no step is produced), zero repeat count is accepted,
and on failure nothing is appended to the workflow.  A negative delay,
however, is not validated: it parses and is accepted. -/
theorem step_construction_validation :
    (∀ (a : String) (y : Option ℤ) (d : Option ℚ), applyMouse a none y d = none) ∧
    (∀ (a : String) (x : Option ℤ) (d : Option ℚ), applyMouse a x none d = none) ∧
    (∀ (a : String) (x y : ℤ), applyMouse a (some x) (some y) none = none) ∧
    (∀ (a : String) (d : Option ℚ), applyKeyboard a "" d = none) ∧
    (∀ (a v : String), applyKeyboard a v none = none) ∧
    (∀ (steps : List Step) (d : ℚ), applyLoop none steps d = none) ∧
    (∀ (c : ℤ) (steps : List Step) (d : ℚ), c < 0 → applyLoop (some c) steps d = none) ∧
    (∀ (steps : List Step) (d : ℚ), applyLoop (some 0) steps d = some (.loop 0 steps d)) ∧
    (∀ wf : List Step, addStepTo wf none = wf) := by
  refine ⟨?_, ?_, ?_, ?_, ?_, ?_, ?_, ?_, ?_⟩
  · intro a y d
    cases y <;> cases d <;> rfl
  · intro a x d
    cases x <;> cases d <;> rfl
  · intro a x y
    rfl
  · intro a d
    rfl
  · intro a v
    by_cases hv : v = "" <;> simp [applyKeyboard, hv]
  · intro steps d
    rfl
  · intro c steps d hc
    simp [applyLoop, hc]
  · intro steps d
    rfl
  · intro wf
    rfl

theorem step_construction_validation_witness :
    applyMouse "Click" none (some 1) (some 0) = none ∧
    applyLoop (some (-1)) [] 0 = none ∧
    applyLoop (some 0) [] 0 = some (.loop 0 [] 0) ∧
    addStepTo [] none = [] :=
  ⟨step_construction_validation.1 "Click" (some 1) (some 0),
   (step_construction_validation.2.2.2.2.2.2.1 (-1) [] 0 (by norm_num)),
   (step_construction_validation.2.2.2.2.2.2.2.1 [] 0),
   (step_construction_validation.2.2.2.2.2.2.2.2 [])⟩

/-- C8 counterexample: a keyboard step with a negative delay passes
validation — construction succeeds and the step is appended, where the
claim requires a validation failure with nothing appended. -/
theorem negative_delay_accepted_cex :
    applyKeyboard "Type Text" "a" (some (-1)) =
      some (.keyboard "Type Text" "a" (-1)) ∧
    addStepTo [] (applyKeyboard "Type Text" "a" (some (-1))) =
      [.keyboard "Type Text" "a" (-1)] :=
  ⟨rfl, rfl⟩

/-! ## Claim theorems: the capture state machine -/

theorem addStep_kbStopped (t : ℚ) (mk : ℚ → RStep) (s : CapState) :
    (addStep t mk s).kbStopped = s.kbStopped := by
  cases h : s.startTime <;> simp [addStep, h]

theorem addStep_msStopped (t : ℚ) (mk : ℚ → RStep) (s : CapState) :
    (addStep t mk s).msStopped = s.msStopped := by
  cases h : s.startTime <;> simp [addStep, h]

theorem addStep_recd (t : ℚ) (mk : ℚ → RStep) (s : CapState) :
    ∃ d, (addStep t mk s).recd = s.recd ++ [mk d] := by
  cases h : s.startTime with
  | none => exact ⟨0, by simp [addStep, h]⟩
  | some t0 => exact ⟨pyRound3 (max 0 (t - s.lastTime)), by simp [addStep, h]⟩

/-- A dead keyboard listener ignores key events. -/
theorem procEv_key_dead {thr : ℚ} {s : CapState} (h : s.kbStopped = true)
    (k : KeyK) (t : ℚ) : procEv thr s (.key k t) = s := by
  simp [procEv, h]

/-- A dead mouse listener ignores mouse events. -/
theorem procEv_click_dead {thr : ℚ} {s : CapState} (h : s.msStopped = true)
    (x y : ℤ) (b : MBtn) (pr : Bool) (t : ℚ) :
    procEv thr s (.click x y b pr t) = s := by
  simp [procEv, h]

/-- After an escape key event the keyboard listener is stopped. -/
theorem procEv_esc (thr : ℚ) (s : CapState) (t : ℚ) :
    (procEv thr s (.key .esc t)).kbStopped = true := by
  by_cases h : s.kbStopped = true
  · simp [procEv, h]
  · simp [procEv, Bool.not_eq_true _ |>.mp h]

/-- Mouse events never change the keyboard listener's stop flag. -/
theorem procEv_click_kbStopped (thr : ℚ) (s : CapState) (x y : ℤ)
    (b : MBtn) (pr : Bool) (t : ℚ) :
    (procEv thr s (.click x y b pr t)).kbStopped = s.kbStopped := by
  by_cases hms : s.msStopped = true
  · rw [procEv_click_dead hms]
  · have hms2 := Bool.not_eq_true _ |>.mp hms
    simp only [procEv, hms2, Bool.false_eq_true, if_false]
    split_ifs <;> simp [addStep_kbStopped]

/-- Key events never change the mouse listener's stop flag. -/
theorem procEv_key_msStopped (thr : ℚ) (s : CapState) (k : KeyK) (t : ℚ) :
    (procEv thr s (.key k t)).msStopped = s.msStopped := by
  by_cases hkb : s.kbStopped = true
  · rw [procEv_key_dead hkb]
  · have hkb2 := Bool.not_eq_true _ |>.mp hkb
    simp only [procEv, hkb2, Bool.false_eq_true, if_false]
    cases k <;> simp [addStep_msStopped]

/-- Once the keyboard listener is stopped, the remaining stream is
processed exactly as if its key events were absent. -/
theorem foldl_kb_dead (thr : ℚ) :
    ∀ (post : List InEv) (s : CapState), s.kbStopped = true →
      post.foldl (procEv thr) s = (post.filter InEv.isClick).foldl (procEv thr) s := by
  intro post
  induction post with
  | nil => intro s _; rfl
  | cons e rest ih =>
    intro s h
    cases e with
    | key k t =>
      rw [List.foldl_cons, procEv_key_dead h]
      rw [show (InEv.key k t :: rest).filter InEv.isClick = rest.filter InEv.isClick by
        simp [List.filter_cons, InEv.isClick]]
      exact ih s h
    | click x y b pr t =>
      rw [List.foldl_cons]
      rw [show (InEv.click x y b pr t :: rest).filter InEv.isClick =
          InEv.click x y b pr t :: rest.filter InEv.isClick by
        simp [List.filter_cons, InEv.isClick]]
      rw [List.foldl_cons]
      exact ih _ (by rw [procEv_click_kbStopped]; exact h)

/-- Once the mouse listener is stopped, the remaining stream is
processed exactly as if its mouse events were absent. -/
theorem foldl_ms_dead (thr : ℚ) :
    ∀ (post : List InEv) (s : CapState), s.msStopped = true →
      post.foldl (procEv thr) s =
        (post.filter (fun e => !e.isClick)).foldl (procEv thr) s := by
  intro post
  induction post with
  | nil => intro s _; rfl
  | cons e rest ih =>
    intro s h
    cases e with
    | key k t =>
      rw [List.foldl_cons]
      rw [show (InEv.key k t :: rest).filter (fun e => !e.isClick) =
          InEv.key k t :: rest.filter (fun e => !e.isClick) by
        simp [List.filter_cons, InEv.isClick]]
      rw [List.foldl_cons]
      exact ih _ (by rw [procEv_key_msStopped]; exact h)
    | click x y b pr t =>
      rw [List.foldl_cons, procEv_click_dead h]
      rw [show (InEv.click x y b pr t :: rest).filter (fun e => !e.isClick) =
          rest.filter (fun e => !e.isClick) by
        simp [List.filter_cons, InEv.isClick]]
      exact ih s h

/-- C7 (amended): the two capture listeners stop independently, each at
its own terminal transition.  Key events after the escape press are
ignored, and mouse events are ignored only once the mouse listener is
stopped — so events of the other device occurring after the first
terminating transition are still recorded.  Every mouse press processed
while the mouse listener is live — including the press that begins the
terminal right-button hold — is recorded as exactly one `"Click"` mouse
step. -/
theorem capture_listener_semantics (thr : ℚ) :
    (∀ (pre post : List InEv) (t : ℚ),
      captureRun thr (pre ++ .key .esc t :: post) =
        captureRun thr (pre ++ .key .esc t :: post.filter InEv.isClick)) ∧
    (∀ (pre post : List InEv),
      (captureRun thr pre).msStopped = true →
      captureRun thr (pre ++ post) =
        captureRun thr (pre ++ post.filter (fun e => !e.isClick))) ∧
    (∀ (s : CapState) (x y : ℤ) (b : MBtn) (t : ℚ),
      s.msStopped = false →
      ∃ d, (procEv thr s (.click x y b true t)).recd =
        s.recd ++ [.ms "Click" x y d]) := by
  refine ⟨?_, ?_, ?_⟩
  · intro pre post t
    rw [captureRun, captureRun, List.foldl_append, List.foldl_append,
        List.foldl_cons, List.foldl_cons]
    exact foldl_kb_dead thr post _ (procEv_esc thr _ t)
  · intro pre post h
    rw [captureRun, captureRun, List.foldl_append, List.foldl_append]
    exact foldl_ms_dead thr post _ h
  · intro s x y b t h
    rcases hst : s.startTime with _ | t0
    · refine ⟨0, ?_⟩
      by_cases hb : b = MBtn.right <;>
        simp [procEv, addStep, h, hb, hst]
    · refine ⟨pyRound3 (max 0 (t - s.lastTime)), ?_⟩
      by_cases hb : b = MBtn.right <;>
        simp [procEv, addStep, h, hb, hst]

theorem capture_listener_semantics_witness :
    captureRun 2 ([] ++ .key .esc 1 :: [.click 5 7 .left true 2]) =
      captureRun 2
        ([] ++ .key .esc 1 :: ([.click 5 7 .left true 2].filter InEv.isClick)) ∧
    captureRun 2 ([.click 9 9 .right true 3, .click 9 9 .right false 6] ++
        [.click 1 1 .left true 7]) =
      captureRun 2 ([.click 9 9 .right true 3, .click 9 9 .right false 6] ++
        ([.click 1 1 .left true 7].filter (fun e => !e.isClick))) ∧
    ∃ d, (procEv 2 capInit (.click 5 7 .left true 2)).recd =
      capInit.recd ++ [.ms "Click" 5 7 d] := by
  refine ⟨(capture_listener_semantics 2).1 [] [.click 5 7 .left true 2] 1,
          (capture_listener_semantics 2).2.1
            [.click 9 9 .right true 3, .click 9 9 .right false 6]
            [.click 1 1 .left true 7] ?_,
          (capture_listener_semantics 2).2.2 capInit 5 7 .left 2 rfl⟩
  norm_num [captureRun, capInit, procEv, addStep]

/-- C7 counterexample: in a session terminated first by escape (at
time 1) and then by a right-button hold from time 3 to 6, the mouse
click at time 2 — after the first terminating transition — and the
terminal right-button press itself are both recorded as Click steps,
where the claim requires neither to be recorded. -/
theorem capture_termination_cex :
    recordSession 2 [.key .esc 1, .click 5 7 .left true 2,
        .click 9 9 .right true 3, .click 9 9 .right false 6] =
      [.ms "Click" 5 7 0, .ms "Click" 9 9 1] ∧
    (captureRun 2 [.key .esc 1, .click 5 7 .left true 2,
        .click 9 9 .right true 3, .click 9 9 .right false 6]).kbStopped = true ∧
    (captureRun 2 [.key .esc 1, .click 5 7 .left true 2,
        .click 9 9 .right true 3, .click 9 9 .right false 6]).msStopped = true := by
  have hq : pyRound3 (max 0 ((3:ℚ) - 2)) = 1 := by
    norm_num [pyRound3, pyRound]
  have hb : (decide ((3:ℚ) ≠ 0) && decide ((2:ℚ) ≤ 6 - 3)) = true := by
    norm_num
  have h1 : procEv 2 capInit (.key .esc 1) =
      ⟨[], none, 0, none, true, false⟩ := by
    simp [procEv, capInit]
  have h2 : procEv 2 ⟨[], none, 0, none, true, false⟩
      (.click 5 7 .left true 2) =
      ⟨[.ms "Click" 5 7 0], some 2, 2, none, true, false⟩ := by
    simp [procEv, addStep]
  have h3 : procEv 2 ⟨[.ms "Click" 5 7 0], some 2, 2, none, true, false⟩
      (.click 9 9 .right true 3) =
      ⟨[.ms "Click" 5 7 0, .ms "Click" 9 9 1], some 2, 3, some 3, true, false⟩ := by
    simp [procEv, addStep, hq]
  have h4 : procEv 2
      ⟨[.ms "Click" 5 7 0, .ms "Click" 9 9 1], some 2, 3, some 3, true, false⟩
      (.click 9 9 .right false 6) =
      ⟨[.ms "Click" 5 7 0, .ms "Click" 9 9 1], some 2, 3, some 3, true, true⟩ := by
    simp [procEv]
    norm_num
  have hrun : captureRun 2 [.key .esc 1, .click 5 7 .left true 2,
      .click 9 9 .right true 3, .click 9 9 .right false 6] =
      ⟨[.ms "Click" 5 7 0, .ms "Click" 9 9 1], some 2, 3, some 3, true, true⟩ := by
    rw [captureRun, List.foldl_cons, h1, List.foldl_cons, h2,
        List.foldl_cons, h3, List.foldl_cons, h4, List.foldl_nil]
  refine ⟨?_, by rw [hrun], by rw [hrun]⟩
  simp only [recordSession]
  rw [hrun]
  rfl

/-! ## Claim theorems: persistence round trip -/

/-- Encode-then-decode is the identity, proved for steps, step lists
and case lists simultaneously by strong induction on size. -/
theorem roundtrip_bounded : ∀ n : ℕ,
    (∀ s : Step, sizeOf s ≤ n → stepFromJson (stepToJson s) = some s) ∧
    (∀ l : List Step, sizeOf l ≤ n → stepsFromJson (stepsToJson l) = some l) ∧
    (∀ cs : List (String × List Step), sizeOf cs ≤ n →
      casesFromJson (casesToJson cs) = some cs) := by
  intro n
  induction n using Nat.strong_induction_on with
  | _ n ih =>
  refine ⟨?_, ?_, ?_⟩
  · intro s hs
    cases s with
    | mouse a x y d => simp [stepToJson, stepFromJson, lookupJ]
    | keyboard a v d => simp [stepToJson, stepFromJson, lookupJ]
    | image p d => simp [stepToJson, stepFromJson, lookupJ]
    | condRecord src cases els d =>
      simp only [Step.condRecord.sizeOf_spec] at hs
      have hpos : 1 ≤ n := by omega
      have hcs := (ih (n - 1) (by omega)).2.2 cases (by omega)
      have hels := (ih (n - 1) (by omega)).2.1 els (by omega)
      simp [stepToJson, stepFromJson, lookupJ, hcs, hels]
    | loop m steps d =>
      simp only [Step.loop.sizeOf_spec] at hs
      have hpos : 1 ≤ n := by omega
      have hsteps := (ih (n - 1) (by omega)).2.1 steps (by omega)
      simp [stepToJson, stepFromJson, lookupJ, hsteps]
  · intro l hl
    cases l with
    | nil => simp [stepsToJson, stepsFromJson]
    | cons s rest =>
      simp only [List.cons.sizeOf_spec] at hl
      have hpos : 1 ≤ n := by omega
      have h1 := (ih (n - 1) (by omega)).1 s (by omega)
      have h2 := (ih (n - 1) (by omega)).2.1 rest (by omega)
      simp [stepsToJson, stepsFromJson, h1, h2]
  · intro cs hcs
    cases cs with
    | nil => simp [casesToJson, casesFromJson]
    | cons c rest =>
      obtain ⟨v, steps⟩ := c
      simp only [List.cons.sizeOf_spec, Prod.mk.sizeOf_spec] at hcs
      have hpos : 1 ≤ n := by omega
      have h1 := (ih (n - 1) (by omega)).2.1 steps (by omega)
      have h2 := (ih (n - 1) (by omega)).2.2 rest (by omega)
      simp [casesToJson, casesFromJson, lookupJ, h1, h2]

/-- C9: saving a workflow and loading it back yields a structurally
equal step sequence — the serialize/deserialize round-trip law. -/
theorem save_load_roundtrip (wf : List Step) :
    loadWorkflow (saveWorkflow wf) = some wf := by
  have h := (roundtrip_bounded (sizeOf wf)).2.1 wf (Nat.le_refl _)
  simpa [saveWorkflow, loadWorkflow] using h

end VWA
